import Mathlib

/-!
ticker: a terminal metronome.

Shallow embedding of `src/ticker.cpp`.

* `float` / `double` quantities (tempo, waitTime, the clock values) are modelled by exact
  rationals `ℚ`; rounding is not modelled.  A quotient whose divisor is zero has no exact
  value (the program computes an infinity or a NaN there), so every statement that depends
  on the value of a quotient carries the hypothesis that the divisor is non-zero.
* `int` quantities are modelled by `Int`.  The only arithmetic on them in the main loop is
  `tickPosition++`, which stays in range whenever the numerator is below `INT_MAX`.
* The body of `while(true)` is split into its three commented phases: `input`, `update`
  and the draw phase, which reads the state left by `update`.
-/

namespace Ticker

/-! ## Data structures and globals -/

/-- Time signature in the form num / den (`struct Timesig`). -/
structure Timesig where
  num : Int
  den : Int
deriving DecidableEq, Repr

/-- The constant `GAP`. -/
def GAP : Int := 2

/-! ## Timing model -/

/-- Interval between successive ticks: `240.0/(tempo*timesig.den)`. -/
def getWaitTime (tempo : ℚ) (timesig : Timesig) : ℚ :=
  240 / (tempo * (timesig.den : ℚ))

/-- Tempo that corresponds to an interval: `240.0/(waitTime*timesig.den)`. -/
def getTempo (waitTime : ℚ) (timesig : Timesig) : ℚ :=
  240 / (waitTime * (timesig.den : ℚ))

/-! ## Main loop state -/

/-- The variables that live across iterations of the main loop: the globals `tempo` and
`timesig` and the locals of `main`. -/
structure State where
  tempo : ℚ
  timesig : Timesig
  waitTime : ℚ
  nextUpdateTime : ℚ
  currentUpdateTime : ℚ
  tickPosition : Int
  paused : Bool
  lastSpacePress : ℚ
deriving DecidableEq, Repr

/-- State on entry to the loop.  `currentUpdateTime` is declared without an initialiser, so
its first value `cur0` is arbitrary. -/
def initState (tempo : ℚ) (timesig : Timesig) (cur0 : ℚ) : State :=
  { tempo := tempo
    timesig := timesig
    waitTime := getWaitTime tempo timesig
    nextUpdateTime := getWaitTime tempo timesig
    currentUpdateTime := cur0
    tickPosition := 1
    paused := false
    lastSpacePress := 0 }

/-- The value `getch()` yields when no key is pending (`ERR`, narrowed to `char`). -/
def noKey : Char := Char.ofNat 255

/-- The input phase: the `switch(c)`.  `none` is the `'q'` branch, which leaves `main`. -/
def input (c : Char) (s : State) : Option State :=
  if c = 'q' then none
  else if c = '+' ∨ c = '=' then
    let tempo := s.tempo + 1
    let waitTime := getWaitTime tempo s.timesig
    some { s with tempo := tempo, waitTime := waitTime, tickPosition := 1,
                  nextUpdateTime := s.currentUpdateTime + waitTime }
  else if c = '-' then
    let tempo := s.tempo - 1
    let waitTime := getWaitTime tempo s.timesig
    some { s with tempo := tempo, waitTime := waitTime, tickPosition := 1,
                  nextUpdateTime := s.currentUpdateTime + waitTime }
  else if c = ' ' then
    let waitTime := s.currentUpdateTime - s.lastSpacePress
    some { s with waitTime := waitTime, tempo := getTempo waitTime s.timesig,
                  lastSpacePress := s.currentUpdateTime,
                  nextUpdateTime := s.currentUpdateTime + waitTime, tickPosition := 1 }
  else if c = 'p' then
    some { s with paused := if s.paused then false else true }
  else some s

/-- The update phase.  `now` is the clock sample `tv - initUpdateTime`. -/
def update (now : ℚ) (s : State) : State :=
  if s.paused then s
  else
    let s1 := { s with currentUpdateTime := now }
    if now ≥ s1.nextUpdateTime then
      let tickPosition := s1.tickPosition + 1
      { s1 with tickPosition := if tickPosition > s1.timesig.num then 1 else tickPosition,
                nextUpdateTime := now + s1.waitTime }
    else s1

/-- One pass through the loop body up to the draw phase: the state that is rendered. -/
def iteration (c : Char) (now : ℚ) (s : State) : Option State :=
  (input c s).map (update now)

/-- Successive iterations, each with the key read and the clock sample taken in it. -/
def run : List (Char × ℚ) → State → Option State
  | [], s => some s
  | (c, now) :: rest, s =>
    match iteration c now s with
    | none => none
    | some s1 => run rest s1

/-- A key that matches no `case` of the switch. -/
def unrecognized (c : Char) : Prop :=
  c ≠ 'q' ∧ c ≠ '+' ∧ c ≠ '=' ∧ c ≠ '-' ∧ c ≠ ' ' ∧ c ≠ 'p'

instance (c : Char) : Decidable (unrecognized c) := by
  unfold unrecognized; infer_instance

/-- Iterations in which no key is pending, one per clock sample. -/
def noKeyFrames (samples : List ℚ) : List (Char × ℚ) :=
  samples.map (fun now => (noKey, now))

/-- The beat position left for the draw phase by each successive iteration. -/
def positions : List (Char × ℚ) → State → List Int
  | [], _ => []
  | (c, now) :: rest, s =>
    match iteration c now s with
    | none => []
    | some s1 => s1.tickPosition :: positions rest s1

/-- Every sample of a key-less run passes the test `currentUpdateTime >= nextUpdateTime`
of the update phase in its iteration, i.e. each iteration performs a beat advance. -/
def allDue : List ℚ → State → Prop
  | [], _ => True
  | now :: rest, s => now ≥ s.nextUpdateTime ∧ allDue rest (update now s)

/-- The beat position is inside the measure. -/
def inMeasure (s : State) : Prop :=
  1 ≤ s.tickPosition ∧ s.tickPosition ≤ s.timesig.num

/-! ## Command line -/

/-- How the argument loop of `main` ends: with `return code`, or by falling through to the
user interface with the values left in the globals `tempo` and `timesig`. -/
inductive ParseResult where
  | exit (code : Nat)
  | ui (tempo : ℚ) (timesig : Timesig)
deriving DecidableEq, Repr

/-- Initial value of the global `tempo`. -/
def defaultTempo : ℚ := 80

/-- Initial value of the global `timesig`. -/
def defaultTimesig : Timesig := ⟨4, 4⟩

/-- The conversion `(int)` of the `long` that `strtol` returns (64-bit `long`, 32-bit `int`). -/
def toInt (v : Int) : Int := (v + 2 ^ 31) % 2 ^ 32 - 2 ^ 31

/-- The argument loop `while(i < argc)` over `argv[1..]`.  The C library conversions are
parameters: `strtof arg` and `strtol arg` give the converted value and the number of
characters consumed, so that `err` points `consumed` characters into `arg` and `strlen(err)`
is non-zero exactly when `consumed < arg.length`. -/
def parseArgs (strtof : String → ℚ × Nat) (strtol : String → Int × Nat) :
    List String → ℚ → Timesig → ParseResult
  | [], tempo, timesig => .ui tempo timesig
  | a :: rest, tempo, timesig =>
    if a = "-h" then .exit 0
    else if a = "-t" then
      match rest with
      | [] => .exit 1
      | v :: rest1 =>
        if (strtof v).2 < v.length then .exit 1
        else parseArgs strtof strtol rest1 (strtof v).1 timesig
    else if a = "-s" then
      match rest with
      | [] => .exit 2
      | v :: rest1 =>
        if (strtol v).2 < v.length then .exit 2
        else
          match rest1 with
          | [] => .exit 2
          | w :: rest2 =>
            if (strtol w).2 < w.length then .exit 2
            else parseArgs strtof strtol rest2 tempo ⟨toInt (strtol v).1, toInt (strtol w).1⟩
    else .exit 3

/-- The argument loop started from the initial values of the globals. -/
def parseCommandLine (strtof : String → ℚ × Nat) (strtol : String → Int × Nat)
    (args : List String) : ParseResult :=
  parseArgs strtof strtol args defaultTempo defaultTimesig

/-- The C library predicate `isspace` in the "C" locale. -/
def isspace (c : Char) : Bool :=
  c = ' ' || (9 ≤ c.toNat && c.toNat ≤ 13)

/-- Value of a run of decimal digits. -/
def digitsValue (ds : List Char) : Nat :=
  ds.foldl (fun acc d => 10 * acc + (d.toNat - 48)) 0

/-- Length of an optional leading sign. -/
def signLength (cs : List Char) : Nat :=
  if cs.head? = some '-' ∨ cs.head? = some '+' then 1 else 0

/-- The C library function `strtol` with base 10 on a 64-bit `long`: optional white space,
an optional sign and a non-empty run of digits are consumed; without digits nothing is
consumed and the value is 0; the value saturates at the ends of the range of `long`. -/
def strtol (s : String) : Int × Nat :=
  let ws := s.toList.takeWhile isspace
  let r := s.toList.dropWhile isspace
  let ds := (r.drop (signLength r)).takeWhile Char.isDigit
  if ds.isEmpty then (0, 0)
  else
    let v : Int := if r.head? = some '-' then -(digitsValue ds : Int) else (digitsValue ds : Int)
    (max (-(2 ^ 63)) (min v (2 ^ 63 - 1)), ws.length + signLength r + ds.length)

/-- The C library function `strtof` on plain decimal input: optional white space, an
optional sign, digits with an optional fractional part.  The other input syntaxes of the C
function (exponents, hexadecimal, infinities, NaN) are not covered: conversion stops where
they would start.  Used for concrete examples only. -/
def strtofDecimal (s : String) : ℚ × Nat :=
  let ws := s.toList.takeWhile isspace
  let r := s.toList.dropWhile isspace
  let r1 := r.drop (signLength r)
  let ip := r1.takeWhile Char.isDigit
  let r2 := r1.drop ip.length
  let dot := if r2.head? = some '.' then 1 else 0
  let fp := if r2.head? = some '.' then (r2.drop 1).takeWhile Char.isDigit else []
  if ip.isEmpty ∧ fp.isEmpty then (0, 0)
  else
    let mag : ℚ := (digitsValue ip : ℚ) + (digitsValue fp : ℚ) / 10 ^ fp.length
    (if r.head? = some '-' then -mag else mag,
     ws.length + signLength r + ip.length + dot + fp.length)

/-! ## Beat counting and run conditions -/

/-- Number of iterations of a run whose update phase executes the body of
`if(currentUpdateTime >= nextUpdateTime)`, i.e. the number of beat advances performed. -/
def advanceCount : List (Char × ℚ) → State → Nat
  | [], _ => 0
  | (c, now) :: rest, s =>
    match input c s with
    | none => 0
    | some s1 =>
      (if s1.paused = false ∧ now ≥ s1.nextUpdateTime then 1 else 0)
        + advanceCount rest (update now s1)

/-- Clock samples that never go back and are at most `gap` apart, `prev` being the sample
before the first of them. -/
def steady (gap : ℚ) : ℚ → List ℚ → Prop
  | _, [] => True
  | prev, now :: rest => prev ≤ now ∧ now ≤ prev + gap ∧ steady gap now rest

/-- A run in which no tap-tempo measures a zero interval and no iteration leaves the
tempo at 0. -/
def tapsAndTempoNonzero : List (Char × ℚ) → State → Prop
  | [], _ => True
  | (c, now) :: rest, s =>
    (c = ' ' → s.currentUpdateTime - s.lastSpacePress ≠ 0) ∧
    match iteration c now s with
    | none => True
    | some s1 => s1.tempo ≠ 0 ∧ tapsAndTempoNonzero rest s1

/-! ## Geometry and drawing -/

/-- The constant `HIGHLIGHT_COLOR`. -/
def HIGHLIGHT_COLOR : Nat := 1

/-- The constant `NORMAL_COLOR`. -/
def NORMAL_COLOR : Nat := 2

/-- The constant `BORDER_COLOR`. -/
def BORDER_COLOR : Nat := 3

/-- The globals `width`, `height`, `startX`, `startY`: the cell of one tick. -/
structure Geometry where
  width : Int
  height : Int
  startX : Int
  startY : Int
deriving DecidableEq, Repr

/-- The geometry part of `resize`; `COLS` and `LINES` are the dimensions of the curses
surface.  The division is the truncating division of C (it is undefined for
`timesig.num = 0`). -/
def resize (COLS LINES : Int) (timesig : Timesig) : Geometry :=
  { width := Int.tdiv (COLS - (GAP * (timesig.num + 1))) timesig.num
    height := LINES - (GAP * 3)
    startX := GAP
    startY := GAP }

/-- A curses attribute as the program builds them: `COLOR_PAIR(pair)`, or'ed with `A_BOLD`
when `bold` is set. -/
structure Attr where
  pair : Nat
  bold : Bool
deriving DecidableEq, Repr

/-- The calls made on the curses surface. -/
inductive DrawCmd where
  | clear
  | attron (a : Attr)
  | attroff (a : Attr)
  | mvvline (y x : Int) (ch : Char) (n : Int)
  | mvhline (y x : Int) (ch : Char) (n : Int)
  | mvprintw (y x : Int) (tempo : ℚ) (num den : Int) (elapsed : ℚ)
  | refresh
deriving DecidableEq, Repr

/-- The function `drawFilledBox`: the loop `for(int j = y; j<=(y+h); j++)`. -/
def drawFilledBox (x y w h : Int) : List DrawCmd :=
  (List.range (h + 1).toNat).map (fun k => DrawCmd.mvhline (y + (k : Int)) x ' ' (w + 1))

/-- The function `drawEmptyBox`. -/
def drawEmptyBox (x y w h : Int) : List DrawCmd :=
  [ DrawCmd.mvvline y x ' ' h,
    DrawCmd.mvvline y (x + w) ' ' h,
    DrawCmd.mvhline y x ' ' w,
    DrawCmd.mvhline (y + h) x ' ' (w + 1) ]

/-- The column `x = startX + (tickPosition-1) * (GAP+width)` of the cell of a beat. -/
def cellX (g : Geometry) (tickPosition : Int) : Int :=
  g.startX + (tickPosition - 1) * (GAP + g.width)

/-- The local `attr` of the draw phase: the emphasis of the filled box. -/
def attr (tickPosition : Int) : Attr :=
  if tickPosition = 1 then ⟨HIGHLIGHT_COLOR, true⟩ else ⟨NORMAL_COLOR, false⟩

/-- The draw phase of one iteration, as the sequence of calls it makes. -/
def draw (COLS LINES : Int) (g : Geometry) (s : State) : List DrawCmd :=
  [DrawCmd.clear, DrawCmd.attron ⟨BORDER_COLOR, false⟩]
    ++ drawEmptyBox (cellX g s.tickPosition) g.startY g.width g.height
    ++ [DrawCmd.attroff ⟨BORDER_COLOR, false⟩, DrawCmd.attron (attr s.tickPosition)]
    ++ drawFilledBox (cellX g s.tickPosition + 1) (g.startY + 1) (g.width - 2) (g.height - 2)
    ++ [DrawCmd.attroff (attr s.tickPosition),
        DrawCmd.mvprintw (LINES - 1) (COLS - 45) s.tempo s.timesig.num s.timesig.den
          s.currentUpdateTime,
        DrawCmd.refresh]

/-- The bordered box of the cell of beat `p` is drawn by the calls `cmds`. -/
def drawsCellBox (cmds : List DrawCmd) (g : Geometry) (p : Int) : Prop :=
  ∀ c ∈ drawEmptyBox (cellX g p) g.startY g.width g.height, c ∈ cmds

/-- The columns `(first, last)` in which a call writes: one column for a vertical line,
`n` columns from `x` on for a horizontal line. -/
def colRange : DrawCmd → Option (Int × Int)
  | DrawCmd.mvvline _ x _ _ => some (x, x)
  | DrawCmd.mvhline _ x _ n => some (x, x + n - 1)
  | _ => none

/-! ## Timing model: theorems -/

/-- C1: getWaitTime and getTempo are mutual inverses over exact arithmetic: when den > 0,
every i > 0 has getWaitTime (getTempo i ts) ts = i and every t > 0 has
getTempo (getWaitTime t ts) ts = t. -/
theorem getWaitTime_getTempo_inverse (ts : Timesig) (hden : 0 < ts.den) :
    (∀ i : ℚ, 0 < i → getWaitTime (getTempo i ts) ts = i) ∧
    (∀ t : ℚ, 0 < t → getTempo (getWaitTime t ts) ts = t) := by
  have hd : (ts.den : ℚ) ≠ 0 := by
    have : (0 : ℚ) < (ts.den : ℚ) := by exact_mod_cast hden
    exact ne_of_gt this
  constructor
  · intro i hi
    have hi0 : i ≠ 0 := ne_of_gt hi
    unfold getWaitTime getTempo
    field_simp
    ring
  · intro t ht
    have ht0 : t ≠ 0 := ne_of_gt ht
    unfold getWaitTime getTempo
    field_simp
    ring

/-- Instance of C1 at 4/4: interval 1/2 and tempo 120 map to each other and back. -/
theorem getWaitTime_getTempo_inverse_witness :
    (0 : Int) < (Timesig.mk 4 4).den ∧
    getWaitTime (getTempo (1/2) ⟨4, 4⟩) ⟨4, 4⟩ = 1/2 ∧
    getTempo (getWaitTime 120 ⟨4, 4⟩) ⟨4, 4⟩ = 120 :=
  ⟨by decide,
   (getWaitTime_getTempo_inverse ⟨4, 4⟩ (by decide)).1 (1/2) (by norm_num),
   (getWaitTime_getTempo_inverse ⟨4, 4⟩ (by decide)).2 120 (by norm_num)⟩

/-- C2: for tempo > 0 and den > 0, getWaitTime tempo ts is 240 / (tempo * den), which is
(60 / tempo) * (4 / den) and is the same for every numerator; tempo 60 in 4/4 gives 1 second
and tempo 120 in 3/4 gives 1/2 second. -/
theorem getWaitTime_formula (tempo : ℚ) (ts : Timesig) (htempo : 0 < tempo)
    (hden : 0 < ts.den) :
    getWaitTime tempo ts = 240 / (tempo * (ts.den : ℚ)) ∧
    getWaitTime tempo ts = (60 / tempo) * (4 / (ts.den : ℚ)) ∧
    (∀ n : Int, getWaitTime tempo ⟨n, ts.den⟩ = getWaitTime tempo ts) ∧
    0 < getWaitTime tempo ts ∧
    getWaitTime 60 ⟨4, 4⟩ = 1 ∧
    getWaitTime 120 ⟨3, 4⟩ = 1 / 2 := by
  have hd : (0 : ℚ) < (ts.den : ℚ) := by exact_mod_cast hden
  refine ⟨rfl, ?_, fun _ => rfl, ?_, ?_, ?_⟩
  · unfold getWaitTime
    rw [div_mul_div_comm]
    norm_num
  · unfold getWaitTime
    positivity
  · norm_num [getWaitTime]
  · norm_num [getWaitTime]

/-- Instance of C2 at tempo 80 in 6/8. -/
theorem getWaitTime_formula_witness :
    (0 : ℚ) < 80 ∧ (0 : Int) < (Timesig.mk 6 8).den ∧
    getWaitTime 80 ⟨6, 8⟩ = (60 / 80) * (4 / ((8 : Int) : ℚ)) :=
  ⟨by norm_num, by decide,
   (getWaitTime_formula 80 ⟨6, 8⟩ (by norm_num) (by decide)).2.1⟩

/-! ## Main loop: helper lemmas -/

theorem input_noKey (s : State) : input noKey s = some s := by
  simp [input, noKey]

theorem input_unrecognized (c : Char) (s : State) (hc : unrecognized c) :
    input c s = some s := by
  obtain ⟨h1, h2, h3, h4, h5, h6⟩ := hc
  simp [input, h1, h2, h3, h4, h5, h6]

theorem input_plus (s : State) :
    input '+' s = some
      { s with tempo := s.tempo + 1
               waitTime := getWaitTime (s.tempo + 1) s.timesig
               tickPosition := 1
               nextUpdateTime := s.currentUpdateTime + getWaitTime (s.tempo + 1) s.timesig } := by
  simp [input]

theorem input_equals (s : State) :
    input '=' s = some
      { s with tempo := s.tempo + 1
               waitTime := getWaitTime (s.tempo + 1) s.timesig
               tickPosition := 1
               nextUpdateTime := s.currentUpdateTime + getWaitTime (s.tempo + 1) s.timesig } := by
  simp [input]

theorem input_minus (s : State) :
    input '-' s = some
      { s with tempo := s.tempo - 1
               waitTime := getWaitTime (s.tempo - 1) s.timesig
               tickPosition := 1
               nextUpdateTime := s.currentUpdateTime + getWaitTime (s.tempo - 1) s.timesig } := by
  simp [input]

theorem input_space (s : State) :
    input ' ' s = some
      { s with waitTime := s.currentUpdateTime - s.lastSpacePress
               tempo := getTempo (s.currentUpdateTime - s.lastSpacePress) s.timesig
               lastSpacePress := s.currentUpdateTime
               nextUpdateTime := s.currentUpdateTime + (s.currentUpdateTime - s.lastSpacePress)
               tickPosition := 1 } := by
  simp [input]

theorem input_p (s : State) :
    input 'p' s = some { s with paused := if s.paused then false else true } := by
  simp [input]

theorem update_paused (now : ℚ) (s : State) (hp : s.paused = true) : update now s = s := by
  simp [update, hp]

theorem update_tempo (now : ℚ) (s : State) : (update now s).tempo = s.tempo := by
  unfold update
  split
  · rfl
  · dsimp only
    split <;> rfl

theorem unrecognized_noKey : unrecognized noKey := by
  decide

theorem update_timesig (now : ℚ) (s : State) : (update now s).timesig = s.timesig := by
  unfold update
  split
  · rfl
  · dsimp only
    split <;> rfl

theorem update_paused_eq (now : ℚ) (s : State) : (update now s).paused = s.paused := by
  unfold update
  split
  · rfl
  · dsimp only
    split <;> rfl

theorem input_timesig (c : Char) (s s1 : State) (h : input c s = some s1) :
    s1.timesig = s.timesig := by
  unfold input at h
  split_ifs at h <;> simp at h <;> subst h <;> rfl

/-- The wrap of the update phase computes the successor modulo the numerator. -/
theorem wrap_succ (N : Int) (hN : 1 ≤ N) (j : Nat) :
    (if ((j : Int) % N + 1) + 1 > N then 1 else ((j : Int) % N + 1) + 1)
      = ((j + 1 : Nat) : Int) % N + 1 := by
  have hN0 : N ≠ 0 := by omega
  have h0 : 0 ≤ (j : Int) % N := Int.emod_nonneg _ hN0
  have hlt : (j : Int) % N < N := Int.emod_lt_of_pos _ (by omega)
  have hsplit : (j : Int) = N * ((j : Int) / N) + (j : Int) % N :=
    (Int.ediv_add_emod _ _).symm
  push_cast
  by_cases hr : (j : Int) % N + 1 = N
  · have hgt : ((j : Int) % N + 1) + 1 > N := by omega
    have hz : ((j : Int) + 1) % N = 0 := by
      have : (j : Int) + 1 = N * ((j : Int) / N + 1) := by
        rw [mul_add, mul_one]; omega
      rw [this]
      exact Int.mul_emod_right _ _
    rw [if_pos hgt, hz, zero_add]
  · have hle : ¬ (((j : Int) % N + 1) + 1 > N) := by omega
    have hm : ((j : Int) + 1) % N = (j : Int) % N + 1 := by
      have : (j : Int) + 1 = ((j : Int) % N + 1) + N * ((j : Int) / N) := by omega
      rw [this, Int.add_mul_emod_self_left]
      exact Int.emod_eq_of_lt (by omega) (by omega)
    rw [if_neg hle, hm]

/-- A due update of a running state advances the position by one, modulo the numerator. -/
theorem update_due_position (now : ℚ) (s : State) (j : Nat) (hN : 1 ≤ s.timesig.num)
    (hp : s.paused = false) (hpos : s.tickPosition = (j : Int) % s.timesig.num + 1)
    (hdue : now ≥ s.nextUpdateTime) :
    (update now s).tickPosition = ((j + 1 : Nat) : Int) % s.timesig.num + 1 := by
  have h := wrap_succ s.timesig.num hN j
  simp only [update, hp, hdue, if_true, Bool.false_eq_true, if_false]
  rw [hpos]
  exact h

/-- Positions of a key-less run in which every iteration advances, from offset `j`. -/
theorem positions_allDue (samples : List ℚ) :
    ∀ (s : State) (j : Nat), 1 ≤ s.timesig.num → s.paused = false →
      s.tickPosition = (j : Int) % s.timesig.num + 1 → allDue samples s →
      positions (noKeyFrames samples) s =
        (List.range samples.length).map
          (fun i => ((j + 1 + i : Nat) : Int) % s.timesig.num + 1) := by
  induction samples with
  | nil => intro s j _ _ _ _; rfl
  | cons now rest ih =>
    intro s j hN hp hpos hdue
    obtain ⟨hd, hrest⟩ := hdue
    have hstep := update_due_position now s j hN hp hpos hd
    have hts := update_timesig now s
    have hpa : (update now s).paused = false := by rw [update_paused_eq, hp]
    have ih1 := ih (update now s) (j + 1) (by rw [hts]; exact hN) hpa
      (by rw [hts]; exact hstep) hrest
    simp only [noKeyFrames, List.map_cons, positions, iteration, input_noKey, Option.map_some']
    simp only [noKeyFrames] at ih1
    rw [ih1, hts, List.length_cons, List.range_succ_eq_map, List.map_cons, List.map_map]
    refine congrArg₂ List.cons ?_ ?_
    · rw [hstep]
    · apply List.map_congr_left
      intro i _
      simp only [Function.comp]
      have : j + 1 + 1 + i = j + 1 + Nat.succ i := by omega
      rw [this]

/-- Final state of a key-less run in which every iteration advances, from offset `j`. -/
theorem run_allDue (samples : List ℚ) :
    ∀ (s : State) (j : Nat), 1 ≤ s.timesig.num → s.paused = false →
      s.tickPosition = (j : Int) % s.timesig.num + 1 → allDue samples s →
      ∃ s1, run (noKeyFrames samples) s = some s1 ∧
        s1.tickPosition = ((j + samples.length : Nat) : Int) % s.timesig.num + 1 := by
  induction samples with
  | nil => intro s j _ _ hpos _; exact ⟨s, rfl, by simpa using hpos⟩
  | cons now rest ih =>
    intro s j hN hp hpos hdue
    obtain ⟨hd, hrest⟩ := hdue
    have hstep := update_due_position now s j hN hp hpos hd
    have hts := update_timesig now s
    have hpa : (update now s).paused = false := by rw [update_paused_eq, hp]
    obtain ⟨s1, hrun, htick⟩ := ih (update now s) (j + 1) (by rw [hts]; exact hN) hpa
      (by rw [hts]; exact hstep) hrest
    refine ⟨s1, ?_, ?_⟩
    · simp only [noKeyFrames, List.map_cons, run, iteration, input_noKey, Option.map_some']
      simpa only [noKeyFrames] using hrun
    · rw [htick, hts, List.length_cons]
      have : j + 1 + rest.length = j + (rest.length + 1) := by omega
      rw [this]

/-- The input phase keeps the beat position inside the measure. -/
theorem inMeasure_input (c : Char) (s s1 : State) (hN : 1 ≤ s.timesig.num)
    (hin : inMeasure s) (h : input c s = some s1) : inMeasure s1 := by
  unfold input at h
  unfold inMeasure at *
  split_ifs at h <;> simp at h <;> subst h <;>
    first
      | exact hin
      | exact ⟨le_refl _, hN⟩

/-- The update phase keeps the beat position inside the measure. -/
theorem inMeasure_update (now : ℚ) (s : State) (hN : 1 ≤ s.timesig.num)
    (hin : inMeasure s) : inMeasure (update now s) := by
  unfold inMeasure at *
  unfold update
  split
  · exact hin
  · dsimp only
    split
    · dsimp only
      split <;> omega
    · exact hin

/-- Any run keeps the beat position inside the measure and the time signature fixed. -/
theorem inMeasure_run (frames : List (Char × ℚ)) :
    ∀ (s s1 : State), 1 ≤ s.timesig.num → inMeasure s → run frames s = some s1 →
      inMeasure s1 ∧ s1.timesig = s.timesig := by
  induction frames with
  | nil =>
    intro s s1 _ hin h
    simp only [run, Option.some.injEq] at h
    subst h
    exact ⟨hin, rfl⟩
  | cons f rest ih =>
    intro s s1 hN hin h
    obtain ⟨c, now⟩ := f
    simp only [run, iteration] at h
    cases hi : input c s with
    | none => simp [hi] at h
    | some s2 =>
      simp only [hi, Option.map_some'] at h
      have hts2 := input_timesig c s s2 hi
      have hin2 := inMeasure_input c s s2 hN hin hi
      have hN2 : 1 ≤ s2.timesig.num := by rw [hts2]; exact hN
      have hin3 := inMeasure_update now s2 hN2 hin2
      have hts3 := update_timesig now s2
      obtain ⟨hfin, htsfin⟩ := ih (update now s2) s1 (by rw [hts3]; exact hN2) hin3 h
      exact ⟨hfin, by rw [htsfin, hts3, hts2]⟩

/-! ## Main loop: theorems -/

/-- C3: beat advance wraps around the measure: for every numerator N >= 1, starting from
position 1 in a running state, after k iterations without key input that each perform a due
beat advance the position is (k mod N) + 1, for every k up to the length of the run; for
N = 4 the first five advances give the positions 2, 3, 4, 1, 2. -/
theorem beat_advance_wraps (N : Int) (hN : 1 ≤ N) (s : State) (samples : List ℚ)
    (hnum : s.timesig.num = N) (hp : s.paused = false) (hpos : s.tickPosition = 1)
    (hdue : allDue samples s) :
    positions (noKeyFrames samples) s =
        (List.range samples.length).map (fun i => ((i + 1 : Nat) : Int) % N + 1) ∧
    (∃ s1, run (noKeyFrames samples) s = some s1 ∧
        s1.tickPosition = (samples.length : Int) % N + 1) ∧
    (N = 4 → samples.length = 5 → positions (noKeyFrames samples) s = [2, 3, 4, 1, 2]) := by
  have hN1 : 1 ≤ s.timesig.num := by rw [hnum]; exact hN
  have hpos0 : s.tickPosition = ((0 : Nat) : Int) % s.timesig.num + 1 := by
    rw [hpos]; simp
  have h1 := positions_allDue samples s 0 hN1 hp hpos0 hdue
  have h1a : positions (noKeyFrames samples) s =
      (List.range samples.length).map (fun i => ((i + 1 : Nat) : Int) % N + 1) := by
    rw [h1, hnum]
    apply List.map_congr_left
    intro i _
    have : 0 + 1 + i = i + 1 := by omega
    rw [this]
  refine ⟨h1a, ?_, ?_⟩
  · obtain ⟨s1, hrun, htick⟩ := run_allDue samples s 0 hN1 hp hpos0 hdue
    refine ⟨s1, hrun, ?_⟩
    rw [htick, hnum, Nat.zero_add]
  · intro h4 h5
    rw [h1a, h4, h5]
    decide

/-- Instance of C3: tempo 80 in 4/4 (interval 3/4 s), sampled exactly at the five beats. -/
theorem beat_advance_wraps_witness :
    positions (noKeyFrames [3/4, 3/2, 9/4, 3, 15/4]) (initState 80 ⟨4, 4⟩ 0)
      = [2, 3, 4, 1, 2] :=
  (beat_advance_wraps 4 (by decide) (initState 80 ⟨4, 4⟩ 0) [3/4, 3/2, 9/4, 3, 15/4]
    rfl rfl rfl (by norm_num [allDue, update, initState, getWaitTime])).2.2 rfl rfl

/-- C4: the beat position is always inside the measure: for every time signature with
numerator N >= 1, every state reached from the initial state by any sequence of loop
iterations (any keys, any clock samples) has 1 <= tickPosition <= N. -/
theorem tickPosition_in_measure (tempo cur0 : ℚ) (ts : Timesig) (hN : 1 ≤ ts.num)
    (frames : List (Char × ℚ)) (s : State)
    (h : run frames (initState tempo ts cur0) = some s) :
    1 ≤ s.tickPosition ∧ s.tickPosition ≤ ts.num := by
  have hinit : inMeasure (initState tempo ts cur0) := ⟨le_refl _, hN⟩
  obtain ⟨hin, hts⟩ := inMeasure_run frames (initState tempo ts cur0) s hN hinit h
  have hts1 : s.timesig = ts := hts
  unfold inMeasure at hin
  rw [hts1] at hin
  exact hin

/-- Instance of C4: in 3/4 at tempo 80, a '+' frame at 0.1 s followed by a key-less frame at
1 s leaves the position at 2, inside the measure. -/
theorem tickPosition_in_measure_witness :
    (1 : Int) ≤ (Timesig.mk 3 4).num ∧
    run [('+', 1/10), (noKey, 1)] (initState 80 ⟨3, 4⟩ 0)
      = some { tempo := 81, timesig := ⟨3, 4⟩, waitTime := 20/27, nextUpdateTime := 47/27,
               currentUpdateTime := 1, tickPosition := 2, paused := false,
               lastSpacePress := 0 } ∧
    (1 : Int) ≤ 2 ∧ (2 : Int) ≤ 3 :=
  have hrun : run [('+', 1/10), (noKey, 1)] (initState 80 ⟨3, 4⟩ 0)
      = some { tempo := 81, timesig := ⟨3, 4⟩, waitTime := 20/27, nextUpdateTime := 47/27,
               currentUpdateTime := 1, tickPosition := 2, paused := false,
               lastSpacePress := 0 } := by
    simp only [run, iteration, input_plus, input_noKey, Option.map_some']
    norm_num [update, initState, getWaitTime]
  ⟨by decide, hrun, tickPosition_in_measure 80 0 ⟨3, 4⟩ (by decide) _ _ hrun⟩

/-- C5 as stated fails: at tempo 80 in 4/4, one key-less frame at 0.1 s followed by a '+'
frame whose clock sample is 1 s (later than 0.1 + 20/27) renders beat position 2. -/
theorem tempo_key_same_frame_counterexample :
    (run [(noKey, 1/10), ('+', 1)] (initState 80 ⟨4, 4⟩ 0)).map State.tickPosition
      = some 2 := by
  simp only [run, iteration, input_plus, input_noKey, Option.map_some']
  norm_num [update, initState, getWaitTime]

/-- C5 (amended): for every state, every clock sample and every key among '+', '=', '-' and
space, the input phase sets the beat position to 1 and reschedules the next beat at
currentUpdateTime + waitTime; the position rendered by the same iteration is 1 whenever the
loop is paused or the clock sample is earlier than that rescheduled time, and otherwise the
update phase of the same iteration advances it to 2 (to 1 when the numerator is below 2). -/
theorem tempo_key_resets_position (s : State) (c : Char) (now : ℚ)
    (hc : c = '+' ∨ c = '=' ∨ c = '-' ∨ c = ' ') :
    ∃ s1, input c s = some s1 ∧ iteration c now s = some (update now s1) ∧
      s1.tickPosition = 1 ∧ s1.paused = s.paused ∧ s1.timesig = s.timesig ∧
      s1.nextUpdateTime = s.currentUpdateTime + s1.waitTime ∧
      ((s.paused = true ∨ now < s.currentUpdateTime + s1.waitTime) →
        (update now s1).tickPosition = 1) ∧
      ((s.paused = false ∧ s.currentUpdateTime + s1.waitTime ≤ now) →
        (update now s1).tickPosition = if 2 ≤ s.timesig.num then 2 else 1) := by
  have key : ∀ s1 : State, input c s = some s1 → s1.tickPosition = 1 →
      s1.paused = s.paused → s1.timesig = s.timesig →
      s1.nextUpdateTime = s.currentUpdateTime + s1.waitTime →
      ∃ s1, input c s = some s1 ∧ iteration c now s = some (update now s1) ∧
        s1.tickPosition = 1 ∧ s1.paused = s.paused ∧ s1.timesig = s.timesig ∧
        s1.nextUpdateTime = s.currentUpdateTime + s1.waitTime ∧
        ((s.paused = true ∨ now < s.currentUpdateTime + s1.waitTime) →
          (update now s1).tickPosition = 1) ∧
        ((s.paused = false ∧ s.currentUpdateTime + s1.waitTime ≤ now) →
          (update now s1).tickPosition = if 2 ≤ s.timesig.num then 2 else 1) := by
    intro s1 hin htick hpa hts hnext
    refine ⟨s1, hin, by simp [iteration, hin], htick, hpa, hts, hnext, ?_, ?_⟩
    · rintro (hp | hlt)
      · rw [update_paused now s1 (by rw [hpa]; exact hp)]; exact htick
      · have hnd : ¬ (now ≥ s1.nextUpdateTime) := by rw [hnext]; exact not_le.mpr hlt
        unfold update
        split
        · exact htick
        · simp only [hnd, if_false]; exact htick
    · rintro ⟨hp, hle⟩
      have hd : now ≥ s1.nextUpdateTime := by rw [hnext]; exact hle
      have hp1 : s1.paused = false := by rw [hpa]; exact hp
      simp only [update, hp1, hd, if_true, Bool.false_eq_true, if_false, htick, hts]
      by_cases h2 : 2 ≤ s.timesig.num
      · rw [if_pos h2, if_neg (by omega)]; rfl
      · rw [if_neg h2, if_pos (by omega)]
  rcases hc with h | h | h | h <;> subst h
  · exact key _ (input_plus s) rfl rfl rfl rfl
  · exact key _ (input_equals s) rfl rfl rfl rfl
  · exact key _ (input_minus s) rfl rfl rfl rfl
  · exact key _ (input_space s) rfl rfl rfl rfl

/-- Instance of C5 (amended): '+' at tempo 80 in 4/4 with the next sample 18 ms later. -/
theorem tempo_key_resets_position_witness :
    ∃ s1, input '+' (initState 80 ⟨4, 4⟩ 0) = some s1 ∧
      iteration '+' (9/500) (initState 80 ⟨4, 4⟩ 0) = some (update (9/500) s1) ∧
      s1.tickPosition = 1 ∧ (update (9/500) s1).tickPosition = 1 := by
  obtain ⟨s1, h1, h2, h3, _, _, _, h7, _⟩ :=
    tempo_key_resets_position (initState 80 ⟨4, 4⟩ 0) '+' (9/500) (Or.inl rfl)
  refine ⟨s1, h1, h2, h3, h7 (Or.inr ?_)⟩
  rw [input_plus] at h1
  rw [← Option.some.inj h1]
  norm_num [initState, getWaitTime]

/-- C6 as stated fails: with tempo 1/2 (positive), the '-' key leaves tempo -1/2. -/
theorem tempo_positive_counterexample :
    0 < (initState (1/2) ⟨4, 4⟩ 0).tempo ∧
    (iteration '-' (1/10) (initState (1/2) ⟨4, 4⟩ 0)).map State.tempo = some (-1/2) := by
  constructor
  · norm_num [initState]
  · simp only [iteration, input_minus, Option.map_some', update_tempo]
    norm_num [initState]

/-- C6 (amended): the loop neither clamps nor rejects a tempo.  For every state with
tempo > 0 and every key other than 'q', the iteration yields a state in which: after '+' or
'=' the tempo is tempo + 1 and positive; after '-' it is tempo - 1, positive exactly when
tempo > 1; after space it is positive when den > 0 and the current elapsed time is later
than the last tap; after 'p' or an unrecognized key it is unchanged. -/
theorem tempo_after_iteration (s : State) (c : Char) (now : ℚ) (hpos : 0 < s.tempo)
    (hq : c ≠ 'q') :
    ∃ s1, iteration c now s = some s1 ∧
      ((c = '+' ∨ c = '=') → s1.tempo = s.tempo + 1 ∧ 0 < s1.tempo) ∧
      (c = '-' → s1.tempo = s.tempo - 1 ∧ (0 < s1.tempo ↔ 1 < s.tempo)) ∧
      (c = ' ' → 0 < s.timesig.den → s.lastSpacePress < s.currentUpdateTime →
        s1.tempo = 240 / ((s.currentUpdateTime - s.lastSpacePress) * (s.timesig.den : ℚ)) ∧
        0 < s1.tempo) ∧
      ((c = 'p' ∨ unrecognized c) → s1.tempo = s.tempo ∧ 0 < s1.tempo) := by
  by_cases h1 : c = '+'
  · subst h1
    refine ⟨_, by rw [iteration, input_plus]; rfl, ?_, ?_, ?_, ?_⟩
    · intro _; rw [update_tempo]; exact ⟨rfl, by dsimp only; linarith⟩
    · intro h; exact absurd h (by decide)
    · intro h; exact absurd h (by decide)
    · rintro (h | h)
      · exact absurd h (by decide)
      · exact absurd rfl h.2.1
  by_cases h2 : c = '='
  · subst h2
    refine ⟨_, by rw [iteration, input_equals]; rfl, ?_, ?_, ?_, ?_⟩
    · intro _; rw [update_tempo]; exact ⟨rfl, by dsimp only; linarith⟩
    · intro h; exact absurd h (by decide)
    · intro h; exact absurd h (by decide)
    · rintro (h | h)
      · exact absurd h (by decide)
      · exact absurd rfl h.2.2.1
  by_cases h3 : c = '-'
  · subst h3
    refine ⟨_, by rw [iteration, input_minus]; rfl, ?_, ?_, ?_, ?_⟩
    · rintro (h | h) <;> exact absurd h (by decide)
    · intro _; rw [update_tempo]
      exact ⟨rfl, by dsimp only; constructor <;> intro h <;> linarith⟩
    · intro h; exact absurd h (by decide)
    · rintro (h | h)
      · exact absurd h (by decide)
      · exact absurd rfl h.2.2.2.1
  by_cases h4 : c = ' '
  · subst h4
    refine ⟨_, by rw [iteration, input_space]; rfl, ?_, ?_, ?_, ?_⟩
    · rintro (h | h) <;> exact absurd h (by decide)
    · intro h; exact absurd h (by decide)
    · intro _ hden hlt
      rw [update_tempo]
      refine ⟨rfl, ?_⟩
      dsimp only [getTempo]
      have hd : (0 : ℚ) < (s.timesig.den : ℚ) := by exact_mod_cast hden
      have hw : 0 < s.currentUpdateTime - s.lastSpacePress := by linarith
      positivity
    · rintro (h | h)
      · exact absurd h (by decide)
      · exact absurd rfl h.2.2.2.2.1
  by_cases h5 : c = 'p'
  · subst h5
    refine ⟨_, by rw [iteration, input_p]; rfl, ?_, ?_, ?_, ?_⟩
    · rintro (h | h) <;> exact absurd h (by decide)
    · intro h; exact absurd h (by decide)
    · intro h; exact absurd h (by decide)
    · intro _; rw [update_tempo]; exact ⟨rfl, hpos⟩
  · have hu : unrecognized c := ⟨hq, h1, h2, h3, h4, h5⟩
    refine ⟨_, by rw [iteration, input_unrecognized c s hu]; rfl, ?_, ?_, ?_, ?_⟩
    · rintro (h | h)
      · exact absurd h h1
      · exact absurd h h2
    · intro h; exact absurd h h3
    · intro h; exact absurd h h4
    · intro _; rw [update_tempo]; exact ⟨rfl, hpos⟩

/-- Instance of C6 (amended): '-' at tempo 80 leaves tempo 79. -/
theorem tempo_after_iteration_witness :
    0 < (initState 80 ⟨4, 4⟩ 0).tempo ∧ '-' ≠ 'q' ∧
    ∃ s1, iteration '-' (1/10) (initState 80 ⟨4, 4⟩ 0) = some s1 ∧
      s1.tempo = (initState 80 ⟨4, 4⟩ 0).tempo - 1 ∧ 0 < s1.tempo := by
  have hpos : 0 < (initState 80 ⟨4, 4⟩ 0).tempo := by norm_num [initState]
  obtain ⟨s1, hit, _, hm, _, _⟩ :=
    tempo_after_iteration (initState 80 ⟨4, 4⟩ 0) '-' (1/10) hpos (by decide)
  exact ⟨hpos, by decide, s1, hit, (hm rfl).1, (hm rfl).2.mpr (by norm_num [initState])⟩

/-- C9: pause freezes the beat position and the displayed elapsed time: from a state with
paused = true, any number of iterations that each receive no key event or an unrecognized
key, for any clock samples, leave tickPosition, currentUpdateTime, nextUpdateTime and tempo
(indeed the whole state) unchanged, and the loop stays paused. -/
theorem paused_frames_freeze (s : State) (hp : s.paused = true) :
    (∀ (c : Char) (now : ℚ), (c = noKey ∨ unrecognized c) → iteration c now s = some s) ∧
    (∀ frames : List (Char × ℚ), (∀ f ∈ frames, f.1 = noKey ∨ unrecognized f.1) →
      ∃ s1, run frames s = some s1 ∧ s1.tickPosition = s.tickPosition ∧
        s1.currentUpdateTime = s.currentUpdateTime ∧
        s1.nextUpdateTime = s.nextUpdateTime ∧ s1.tempo = s.tempo ∧
        s1.paused = true ∧ s1 = s) := by
  have hone : ∀ (c : Char) (now : ℚ), (c = noKey ∨ unrecognized c) →
      iteration c now s = some s := by
    intro c now hc
    have hu : unrecognized c := by
      rcases hc with h | h
      · rw [h]; exact unrecognized_noKey
      · exact h
    rw [iteration, input_unrecognized c s hu, Option.map_some', update_paused now s hp]
  refine ⟨hone, ?_⟩
  intro frames
  induction frames with
  | nil => intro _; exact ⟨s, rfl, rfl, rfl, rfl, rfl, hp, rfl⟩
  | cons f rest ih =>
    intro hall
    obtain ⟨c, now⟩ := f
    have hc := hall (c, now) (List.mem_cons_self _ _)
    obtain ⟨s1, hrun, h⟩ := ih (fun g hg => hall g (List.mem_cons_of_mem _ hg))
    refine ⟨s1, ?_, h⟩
    simp only [run, hone c now hc]
    exact hrun

/-- Instance of C9: a paused state at tempo 80 in 4/4 through three frames. -/
theorem paused_frames_freeze_witness :
    ∃ s1, run [(noKey, 1), ('x', 2), (noKey, 50)]
        { initState 80 ⟨4, 4⟩ 0 with paused := true, tickPosition := 3 } = some s1 ∧
      s1.tickPosition = 3 ∧ s1.currentUpdateTime = 0 := by
  obtain ⟨s1, hrun, h1, h2, _⟩ :=
    (paused_frames_freeze { initState 80 ⟨4, 4⟩ 0 with paused := true, tickPosition := 3 }
      rfl).2 [(noKey, 1), ('x', 2), (noKey, 50)] (by decide)
  exact ⟨s1, hrun, h1, h2⟩

/-- C10: the beat state machine transition: for every running (not paused) state and every
elapsed-time sample t, if t >= nextUpdateTime the update phase sets tickPosition to
tickPosition + 1 (to 1 when that exceeds the numerator) and nextUpdateTime to t + waitTime;
if t < nextUpdateTime, tickPosition and nextUpdateTime are unchanged. -/
theorem update_transition (s : State) (t : ℚ) (hp : s.paused = false) :
    (t ≥ s.nextUpdateTime →
      (update t s).tickPosition =
          (if s.tickPosition + 1 > s.timesig.num then 1 else s.tickPosition + 1) ∧
      (update t s).nextUpdateTime = t + s.waitTime) ∧
    (t < s.nextUpdateTime →
      (update t s).tickPosition = s.tickPosition ∧
      (update t s).nextUpdateTime = s.nextUpdateTime) ∧
    (update t s).currentUpdateTime = t := by
  refine ⟨?_, ?_, ?_⟩
  · intro hd
    simp only [update, hp, hd, if_true, Bool.false_eq_true, if_false]
    exact ⟨trivial, trivial⟩
  · intro hlt
    have hnd : ¬ (t ≥ s.nextUpdateTime) := not_le.mpr hlt
    simp only [update, hp, hnd, Bool.false_eq_true, if_false]
    exact ⟨trivial, trivial⟩
  · unfold update
    simp only [hp, Bool.false_eq_true, if_false]
    split <;> rfl

/-- Instance of C10: beat 4 of 4 at tempo 80; a due sample wraps to 1 and reschedules. -/
theorem update_transition_witness :
    (update 3 { initState 80 ⟨4, 4⟩ 0 with tickPosition := 4, nextUpdateTime := 3 }).tickPosition
      = 1 ∧
    (update 3 { initState 80 ⟨4, 4⟩ 0 with tickPosition := 4, nextUpdateTime := 3 }).nextUpdateTime
      = 3 + 3/4 := by
  have h := (update_transition
    { initState 80 ⟨4, 4⟩ 0 with tickPosition := 4, nextUpdateTime := 3 } 3 rfl).1
    (by norm_num [initState])
  refine ⟨h.1.trans (by norm_num [initState]), h.2.trans (by norm_num [initState, getWaitTime])⟩

/-! ## Command line: theorems -/

/-- Where the time signature of an accepted command line comes from: the initial value, or
the two values that follow a `-s`. -/
theorem parseArgs_timesig_source (strtof : String → ℚ × Nat) (strtol : String → Int × Nat) :
    ∀ (n : Nat) (args : List String) (tempo0 : ℚ) (ts0 : Timesig) (tempo : ℚ) (ts : Timesig),
      args.length ≤ n → parseArgs strtof strtol args tempo0 ts0 = .ui tempo ts →
      ts = ts0 ∨ ∃ a b, ["-s", a, b] <:+: args ∧
        ts = ⟨toInt (strtol a).1, toInt (strtol b).1⟩ := by
  intro n
  induction n with
  | zero =>
    intro args tempo0 ts0 tempo ts hlen h
    have hnil : args = [] := List.length_eq_zero.mp (Nat.le_zero.mp hlen)
    subst hnil
    simp only [parseArgs, ParseResult.ui.injEq] at h
    exact Or.inl h.2.symm
  | succ n ih =>
    intro args tempo0 ts0 tempo ts hlen h
    match args, hlen, h with
    | [], _, h =>
      simp only [parseArgs, ParseResult.ui.injEq] at h
      exact Or.inl h.2.symm
    | a :: [], _, h =>
      unfold parseArgs at h
      dsimp only at h
      split_ifs at h
    | a :: v :: [], hlen, h =>
      unfold parseArgs at h
      dsimp only at h
      split_ifs at h
      unfold parseArgs at h
      simp only [ParseResult.ui.injEq] at h
      exact Or.inl h.2.symm
    | a :: v :: w :: rest2, hlen, h =>
      unfold parseArgs at h
      dsimp only at h
      have hl1 : (w :: rest2).length ≤ n := by simp only [List.length_cons] at hlen ⊢; omega
      have hl2 : rest2.length ≤ n := by simp only [List.length_cons] at hlen; omega
      split_ifs at h with h1 h2 h4 h3 h5 h6
      · rcases ih (w :: rest2) _ ts0 tempo ts hl1 h with h7 | ⟨x, y, hxy, h7⟩
        · exact Or.inl h7
        · exact Or.inr ⟨x, y, List.infix_cons (List.infix_cons hxy), h7⟩
      · rcases ih rest2 tempo0 _ tempo ts hl2 h with h7 | ⟨x, y, hxy, h7⟩
        · refine Or.inr ⟨v, w, ?_, h7⟩
          rw [h3]
          exact (List.prefix_append ["-s", v, w] rest2).isInfix
        · exact Or.inr ⟨x, y,
            List.infix_cons (List.infix_cons (List.infix_cons hxy)), h7⟩

/-- C7 (failing input): an empty value passes both `strlen(err)` checks whatever the
conversions return, since nothing is left over after it: `-t ""` enters the user interface
with the tempo that `strtof` reports for no conversion, and `-s "" ""` enters it with the
time signature that `strtol` reports; neither exits with code 1 or 2.  With the C library
values (0 when nothing is converted) the tempo is 0 and the time signature 0/0. -/
theorem parseCommandLine_empty_value (strtof : String → ℚ × Nat)
    (strtol : String → Int × Nat) :
    parseCommandLine strtof strtol ["-t", ""] = .ui (strtof "").1 ⟨4, 4⟩ ∧
    parseCommandLine strtof strtol ["-s", "", ""]
      = .ui 80 ⟨toInt (strtol "").1, toInt (strtol "").1⟩ ∧
    parseCommandLine strtofDecimal Ticker.strtol ["-t", ""] = .ui 0 ⟨4, 4⟩ ∧
    parseCommandLine strtofDecimal Ticker.strtol ["-s", "", ""] = .ui 80 ⟨0, 0⟩ := by
  refine ⟨?_, ?_, by decide, by decide⟩
  · simp [parseCommandLine, parseArgs, defaultTimesig]
  · simp [parseCommandLine, parseArgs, defaultTempo]

/-- The exit codes of the examples of the command-line interface, and the defaults. -/
theorem parseCommandLine_examples :
    parseCommandLine strtofDecimal strtol ["-t", "abc"] = .exit 1 ∧
    parseCommandLine strtofDecimal strtol ["-t"] = .exit 1 ∧
    parseCommandLine strtofDecimal strtol ["-s", "4"] = .exit 2 ∧
    parseCommandLine strtofDecimal strtol ["-s"] = .exit 2 ∧
    parseCommandLine strtofDecimal strtol ["-s", "4", "x"] = .exit 2 ∧
    parseCommandLine strtofDecimal strtol ["-x"] = .exit 3 ∧
    parseCommandLine strtofDecimal strtol ["-h"] = .exit 0 ∧
    parseCommandLine strtofDecimal strtol ["-s", "6", "8"] = .ui 80 ⟨6, 8⟩ ∧
    parseCommandLine strtofDecimal strtol [] = .ui 80 ⟨4, 4⟩ := by
  decide

/-- C8 as stated fails: `-s 0 4` is accepted and leaves timesig.num = 0. -/
theorem timesig_positive_counterexample :
    parseCommandLine strtofDecimal strtol ["-s", "0", "4"] = .ui 80 ⟨0, 4⟩ ∧
    ¬ (0 < (Timesig.mk 0 4).num) := by
  decide

/-- C8 (amended): the argument parser checks that the values of `-s` are integers but not
their sign.  For every argument list it accepts, the resulting time signature is the default
4/4 or the pair of integers converted from the two values after a `-s`; hence num > 0 and
den > 0 whenever every pair of values following a `-s` converts to positive integers. -/
theorem parseCommandLine_timesig (strtof : String → ℚ × Nat) (strtol : String → Int × Nat)
    (args : List String) (tempo : ℚ) (ts : Timesig)
    (h : parseCommandLine strtof strtol args = .ui tempo ts) :
    (ts = ⟨4, 4⟩ ∨ ∃ a b, ["-s", a, b] <:+: args ∧
        ts = ⟨toInt (strtol a).1, toInt (strtol b).1⟩) ∧
    ((∀ a b, ["-s", a, b] <:+: args →
        0 < toInt (strtol a).1 ∧ 0 < toInt (strtol b).1) →
      0 < ts.num ∧ 0 < ts.den) := by
  have hsrc := parseArgs_timesig_source strtof strtol args.length args defaultTempo
    defaultTimesig tempo ts (le_refl _) h
  refine ⟨hsrc, ?_⟩
  intro hpos
  rcases hsrc with h1 | ⟨a, b, hab, h1⟩
  · rw [h1]; decide
  · rw [h1]; exact hpos a b hab

/-- Instance of C8 (amended): `-s 3 4` is accepted with the time signature 3/4. -/
theorem parseCommandLine_timesig_witness :
    parseCommandLine strtofDecimal strtol ["-s", "3", "4"] = .ui 80 ⟨3, 4⟩ ∧
    ((Timesig.mk 3 4 = ⟨4, 4⟩ ∨ ∃ a b, ["-s", a, b] <:+: ["-s", "3", "4"] ∧
        Timesig.mk 3 4 = ⟨toInt (strtol a).1, toInt (strtol b).1⟩) ∧
     ((∀ a b, ["-s", a, b] <:+: ["-s", "3", "4"] →
        0 < toInt (strtol a).1 ∧ 0 < toInt (strtol b).1) →
      0 < (Timesig.mk 3 4).num ∧ 0 < (Timesig.mk 3 4).den)) :=
  ⟨by decide,
   parseCommandLine_timesig strtofDecimal strtol ["-s", "3", "4"] 80 ⟨3, 4⟩ (by decide)⟩

/-! ## Key commands: theorems -/

/-- C12: for every state the input phase on '+' or '=' yields tempo + 1 and on '-' yields
tempo - 1; in each case waitTime is getWaitTime of the new tempo, tickPosition is 1 and
nextUpdateTime is currentUpdateTime + the new waitTime, while the time signature, the pause
flag, the last-tap timestamp (and currentUpdateTime) are unchanged; '+' and '=' have
identical effects. -/
theorem tempo_keys_effect (s : State) :
    input '+' s = input '=' s ∧
    (∃ s1, input '+' s = some s1 ∧ s1.tempo = s.tempo + 1 ∧
      s1.waitTime = getWaitTime (s.tempo + 1) s.timesig ∧ s1.tickPosition = 1 ∧
      s1.nextUpdateTime = s.currentUpdateTime + getWaitTime (s.tempo + 1) s.timesig ∧
      s1.timesig = s.timesig ∧ s1.paused = s.paused ∧
      s1.lastSpacePress = s.lastSpacePress ∧ s1.currentUpdateTime = s.currentUpdateTime) ∧
    (∃ s1, input '-' s = some s1 ∧ s1.tempo = s.tempo - 1 ∧
      s1.waitTime = getWaitTime (s.tempo - 1) s.timesig ∧ s1.tickPosition = 1 ∧
      s1.nextUpdateTime = s.currentUpdateTime + getWaitTime (s.tempo - 1) s.timesig ∧
      s1.timesig = s.timesig ∧ s1.paused = s.paused ∧
      s1.lastSpacePress = s.lastSpacePress ∧ s1.currentUpdateTime = s.currentUpdateTime) := by
  refine ⟨?_, ⟨_, input_plus s, rfl, rfl, rfl, rfl, rfl, rfl, rfl, rfl⟩,
    ⟨_, input_minus s, rfl, rfl, rfl, rfl, rfl, rfl, rfl, rfl⟩⟩
  rw [input_plus, input_equals]

/-- C13: for every state with current elapsed time c and last-tap timestamp l (0 in the
initial state), the input phase on space yields waitTime = c - l,
tempo = getTempo (c - l) timesig = 240 / ((c - l) * den), lastSpacePress = c,
tickPosition = 1 and nextUpdateTime = c + (c - l); two taps 0.5 s apart in 4/4 set the
tempo to 120. -/
theorem tap_tempo_effect (s : State) :
    (∃ s1, input ' ' s = some s1 ∧
      s1.waitTime = s.currentUpdateTime - s.lastSpacePress ∧
      s1.tempo = getTempo (s.currentUpdateTime - s.lastSpacePress) s.timesig ∧
      s1.tempo = 240 / ((s.currentUpdateTime - s.lastSpacePress) * (s.timesig.den : ℚ)) ∧
      s1.lastSpacePress = s.currentUpdateTime ∧ s1.tickPosition = 1 ∧
      s1.nextUpdateTime
        = s.currentUpdateTime + (s.currentUpdateTime - s.lastSpacePress) ∧
      s1.timesig = s.timesig ∧ s1.paused = s.paused ∧
      s1.currentUpdateTime = s.currentUpdateTime) ∧
    (∀ tempo ts cur0, (initState tempo ts cur0).lastSpacePress = 0) ∧
    (run [(noKey, 1), (' ', 51/50), (noKey, 3/2), (' ', 38/25)] (initState 80 ⟨4, 4⟩ 0)).map
      State.tempo = some 120 := by
  refine ⟨⟨_, input_space s, rfl, rfl, rfl, rfl, rfl, rfl, rfl, rfl, rfl⟩, fun _ _ _ => rfl, ?_⟩
  simp only [run, iteration, input_space, input_noKey, Option.map_some', update_tempo]
  norm_num [update, initState, getWaitTime, getTempo]

/-- C14: every input character other than 'q', '+', '=', '-', space and 'p' (the no-event
value included) is ignored: the input phase returns the state unchanged (tempo, waitTime,
tickPosition, nextUpdateTime, the pause flag and the last-tap timestamp) and does not leave
the loop, so the iteration is the one of a frame without key event. -/
theorem unrecognized_key_ignored (c : Char) (s : State) (now : ℚ) (hc : unrecognized c) :
    input c s = some s ∧
    iteration c now s = some (update now s) ∧
    iteration c now s = iteration noKey now s ∧
    unrecognized noKey := by
  have h1 := input_unrecognized c s hc
  refine ⟨h1, ?_, ?_, unrecognized_noKey⟩
  · rw [iteration, h1]; rfl
  · rw [iteration, iteration, h1, input_noKey]

/-- Instance of C14: the key 'x' in the initial state at tempo 80 in 4/4. -/
theorem unrecognized_key_ignored_witness :
    unrecognized 'x' ∧
    input 'x' (initState 80 ⟨4, 4⟩ 0) = some (initState 80 ⟨4, 4⟩ 0) ∧
    iteration 'x' 1 (initState 80 ⟨4, 4⟩ 0) = iteration noKey 1 (initState 80 ⟨4, 4⟩ 0) :=
  have h := unrecognized_key_ignored 'x' (initState 80 ⟨4, 4⟩ 0) 1 (by decide)
  ⟨by decide, h.1, h.2.2.1⟩

/-- C17: for every state the input phase on 'p' negates the pause flag and leaves tempo,
waitTime, tickPosition, nextUpdateTime, the last-tap timestamp (and the time signature and
currentUpdateTime) unchanged; applying it twice restores the original pause flag, indeed
the original state. -/
theorem toggle_pause_effect (s : State) :
    ∃ s1, input 'p' s = some s1 ∧ s1.paused = (!s.paused) ∧ s1.tempo = s.tempo ∧
      s1.waitTime = s.waitTime ∧ s1.tickPosition = s.tickPosition ∧
      s1.nextUpdateTime = s.nextUpdateTime ∧ s1.lastSpacePress = s.lastSpacePress ∧
      s1.timesig = s.timesig ∧ s1.currentUpdateTime = s.currentUpdateTime ∧
      input 'p' s1 = some s := by
  refine ⟨_, input_p s, ?_, rfl, rfl, rfl, rfl, rfl, rfl, rfl, ?_⟩
  · cases s.paused <;> rfl
  · rw [input_p]
    obtain ⟨a, b, c, d, e, f, g, h⟩ := s
    cases g <;> rfl

/-! ## Beat rate: helper lemmas -/

/-- What the update phase leaves in a running state. -/
theorem update_running (now : ℚ) (s : State) (hp : s.paused = false) :
    (update now s).currentUpdateTime = now ∧ (update now s).waitTime = s.waitTime ∧
    (update now s).paused = false ∧
    (update now s).nextUpdateTime
      = if now ≥ s.nextUpdateTime then now + s.waitTime else s.nextUpdateTime := by
  unfold update
  simp only [hp, Bool.false_eq_true, if_false]
  split <;> exact ⟨rfl, rfl, rfl, rfl⟩

theorem run_noKeyFrames_cons (now : ℚ) (rest : List ℚ) (s : State) :
    run (noKeyFrames (now :: rest)) s = run (noKeyFrames rest) (update now s) := by
  simp only [noKeyFrames, List.map_cons, run, iteration, input_noKey, Option.map_some']

theorem advanceCount_noKeyFrames_cons (now : ℚ) (rest : List ℚ) (s : State) :
    advanceCount (noKeyFrames (now :: rest)) s
      = (if s.paused = false ∧ now ≥ s.nextUpdateTime then 1 else 0)
        + advanceCount (noKeyFrames rest) (update now s) := by
  simp only [noKeyFrames, List.map_cons, advanceCount, input_noKey]

theorem getLast_getD_cons (now prev : ℚ) (rest : List ℚ) :
    ((now :: rest).getLast?).getD prev = (rest.getLast?).getD now := by
  cases rest with
  | nil => rfl
  | cons a l =>
    rw [List.getLast?_cons_cons, List.getLast?_eq_getLast _ (List.cons_ne_nil a l)]
    rfl

/-- Bounds on the schedule after a key-less run of a running state. -/
theorem advance_bounds (gap : ℚ) (samples : List ℚ) :
    ∀ s : State, s.paused = false → s.currentUpdateTime < s.nextUpdateTime →
      0 < s.waitTime → steady gap s.currentUpdateTime samples →
      ∃ f, run (noKeyFrames samples) s = some f ∧ f.paused = false ∧
        f.currentUpdateTime = (samples.getLast?).getD s.currentUpdateTime ∧
        s.currentUpdateTime ≤ f.currentUpdateTime ∧
        f.currentUpdateTime < f.nextUpdateTime ∧
        s.nextUpdateTime + (advanceCount (noKeyFrames samples) s : ℚ) * s.waitTime
          ≤ f.nextUpdateTime ∧
        f.nextUpdateTime ≤ s.nextUpdateTime
          + (advanceCount (noKeyFrames samples) s : ℚ) * (s.waitTime + gap) ∧
        (1 ≤ advanceCount (noKeyFrames samples) s →
          f.nextUpdateTime ≤ f.currentUpdateTime + s.waitTime) := by
  induction samples with
  | nil =>
    intro s hp hcur _ _
    refine ⟨s, rfl, hp, rfl, le_refl _, hcur, ?_, ?_, ?_⟩
    · simp [noKeyFrames, advanceCount]
    · simp [noKeyFrames, advanceCount]
    · intro h; simp [noKeyFrames, advanceCount] at h
  | cons now rest ih =>
    intro s hp hcur hw hst
    obtain ⟨hle, hgap, hrest⟩ := hst
    obtain ⟨ucur, uw, upa, unext⟩ := update_running now s hp
    have hcur1 : (update now s).currentUpdateTime < (update now s).nextUpdateTime := by
      rw [ucur, unext]
      split
      · linarith
      · rename_i hnd
        exact not_le.mp hnd
    obtain ⟨f, hrun, hfp, hflast, hfmono, hfcur, hlow, hup, hone⟩ :=
      ih (update now s) upa hcur1 (by rw [uw]; exact hw) (by rw [ucur]; exact hrest)
    rw [uw] at hlow hup hone
    rw [ucur] at hflast hfmono
    refine ⟨f, by rw [run_noKeyFrames_cons]; exact hrun, hfp,
      by rw [getLast_getD_cons]; exact hflast, le_trans hle hfmono, hfcur, ?_, ?_, ?_⟩
    · rw [advanceCount_noKeyFrames_cons]
      by_cases hd : now ≥ s.nextUpdateTime
      · rw [if_pos ⟨hp, hd⟩]
        rw [unext, if_pos hd] at hlow
        push_cast
        have : s.nextUpdateTime ≤ now := hd
        linarith
      · rw [if_neg (fun h => hd h.2)]
        rw [unext, if_neg hd] at hlow
        push_cast
        linarith
    · rw [advanceCount_noKeyFrames_cons]
      by_cases hd : now ≥ s.nextUpdateTime
      · rw [if_pos ⟨hp, hd⟩]
        rw [unext, if_pos hd] at hup
        push_cast
        linarith
      · rw [if_neg (fun h => hd h.2)]
        rw [unext, if_neg hd] at hup
        push_cast
        linarith
    · intro hA
      rw [advanceCount_noKeyFrames_cons] at hA
      by_cases hA1 : 1 ≤ advanceCount (noKeyFrames rest) (update now s)
      · exact hone hA1
      · have hA0 : advanceCount (noKeyFrames rest) (update now s) = 0 := by omega
        rw [hA0] at hup hA
        have hd : now ≥ s.nextUpdateTime := by
          by_contra hnd
          rw [if_neg (fun h => hnd h.2)] at hA
          omega
        rw [unext, if_pos hd] at hup
        simp only [Nat.cast_zero, zero_mul, add_zero] at hup
        linarith

/-! ## Beat rate: theorems -/

/-- C11 as stated fails: at tempo 80 in 4/4 (interval 3/4 s, first beat scheduled at
3/4 s), twelve key-less iterations sampled every half second up to 6 s perform 6 beat
advances, while 7 whole intervals have elapsed since the first scheduled beat (8 scheduled
instants 3/4, 3/2, ..., 6 have been reached). -/
theorem advance_count_counterexample :
    (initState 80 ⟨4, 4⟩ 0).paused = false ∧ 0 < (initState 80 ⟨4, 4⟩ 0).waitTime ∧
    steady (1/2) 0 [1/2, 1, 3/2, 2, 5/2, 3, 7/2, 4, 9/2, 5, 11/2, 6] ∧
    advanceCount (noKeyFrames [1/2, 1, 3/2, 2, 5/2, 3, 7/2, 4, 9/2, 5, 11/2, 6])
      (initState 80 ⟨4, 4⟩ 0) = 6 ∧
    ⌊(6 - (initState 80 ⟨4, 4⟩ 0).nextUpdateTime) / (initState 80 ⟨4, 4⟩ 0).waitTime⌋
      = 7 := by
  refine ⟨rfl, by norm_num [initState, getWaitTime], by norm_num [steady], ?_, ?_⟩
  · simp only [noKeyFrames, List.map_cons, List.map_nil, advanceCount, input_noKey]
    norm_num [update, initState, getWaitTime]
  · norm_num [initState, getWaitTime]

/-- C11 (amended): the update phase performs at most one beat advance per iteration and
reschedules from the clock sample of that iteration, not from the scheduled instant.  For
every running state with interval w > 0 whose elapsed time is before the scheduled beat n0,
and every sequence of key-less iterations whose clock samples never go back and are at most
gap apart, the number A of beat advances performed is at most the number of scheduled
instants n0, n0 + w, n0 + 2w, ... reached by the last sample T (A = 0 exactly when T < n0,
otherwise n0 + (A - 1) w <= T, i.e. A <= floor((T - n0) / w) + 1), and at least one advance
is performed per w + gap of elapsed time (T < n0 + A (w + gap)). -/
theorem advances_per_interval (s : State) (gap : ℚ) (samples : List ℚ)
    (hp : s.paused = false) (hw : 0 < s.waitTime)
    (hcur : s.currentUpdateTime < s.nextUpdateTime)
    (hst : steady gap s.currentUpdateTime samples) :
    ∃ f, run (noKeyFrames samples) s = some f ∧
      f.currentUpdateTime = (samples.getLast?).getD s.currentUpdateTime ∧
      (advanceCount (noKeyFrames samples) s = 0 ↔ f.currentUpdateTime < s.nextUpdateTime) ∧
      (1 ≤ advanceCount (noKeyFrames samples) s →
        s.nextUpdateTime + ((advanceCount (noKeyFrames samples) s : ℚ) - 1) * s.waitTime
          ≤ f.currentUpdateTime ∧
        (advanceCount (noKeyFrames samples) s : ℤ)
          ≤ ⌊(f.currentUpdateTime - s.nextUpdateTime) / s.waitTime⌋ + 1) ∧
      f.currentUpdateTime
        < s.nextUpdateTime + (advanceCount (noKeyFrames samples) s : ℚ) * (s.waitTime + gap) := by
  obtain ⟨f, hrun, _, hlast, _, hfcur, hlow, hup, hone⟩ :=
    advance_bounds gap samples s hp hcur hw hst
  have hbound : 1 ≤ advanceCount (noKeyFrames samples) s →
      s.nextUpdateTime + ((advanceCount (noKeyFrames samples) s : ℚ) - 1) * s.waitTime
        ≤ f.currentUpdateTime := by
    intro hA
    have h1 := hone hA
    linarith
  refine ⟨f, hrun, hlast, ⟨?_, ?_⟩, ?_, ?_⟩
  · intro h0
    rw [h0] at hup
    simp only [Nat.cast_zero, zero_mul, add_zero] at hup
    linarith
  · intro hlt
    by_contra hne
    have hA : 1 ≤ advanceCount (noKeyFrames samples) s := by omega
    have h1 := hbound hA
    have h2 : (1 : ℚ) ≤ (advanceCount (noKeyFrames samples) s : ℚ) := by exact_mod_cast hA
    have h3 : 0 ≤ ((advanceCount (noKeyFrames samples) s : ℚ) - 1) * s.waitTime :=
      mul_nonneg (by linarith) (le_of_lt hw)
    linarith
  · intro hA
    refine ⟨hbound hA, ?_⟩
    have h1 := hbound hA
    have h2 : ((advanceCount (noKeyFrames samples) s : ℤ) - 1)
        ≤ ⌊(f.currentUpdateTime - s.nextUpdateTime) / s.waitTime⌋ := by
      rw [Int.le_floor, le_div_iff₀ hw]
      push_cast
      linarith
    linarith
  · linarith

/-- Instance of C11 (amended): the run of the counterexample, where 6 advances lie between
the bounds 6 <= 8 and 6 < 3/4 + 6 (3/4 + 1/2). -/
theorem advances_per_interval_witness :
    ∃ f, run (noKeyFrames [1/2, 1, 3/2, 2, 5/2, 3, 7/2, 4, 9/2, 5, 11/2, 6])
        (initState 80 ⟨4, 4⟩ 0) = some f ∧
      f.currentUpdateTime = 6 := by
  obtain ⟨f, hrun, hlast, _⟩ := advances_per_interval (initState 80 ⟨4, 4⟩ 0) (1/2)
    [1/2, 1, 3/2, 2, 5/2, 3, 7/2, 4, 9/2, 5, 11/2, 6] rfl
    (by norm_num [initState, getWaitTime]) (by norm_num [initState, getWaitTime])
    (by norm_num [steady, initState])
  exact ⟨f, hrun, by rw [hlast]; rfl⟩

/-! ## Pause and elapsed time -/

theorem run_append (a b : List (Char × ℚ)) :
    ∀ s : State, run (a ++ b) s = (run a s).bind (run b) := by
  induction a with
  | nil => intro s; rfl
  | cons f rest ih =>
    intro s
    obtain ⟨c, now⟩ := f
    simp only [List.cons_append, run]
    cases iteration c now s with
    | none => rfl
    | some s1 => exact ih s1

/-- Frames without a recognized key leave a paused state as it is. -/
theorem run_paused_unrecognized (frames : List (Char × ℚ)) (s : State)
    (hp : s.paused = true) (hk : ∀ f ∈ frames, f.1 = noKey ∨ unrecognized f.1) :
    run frames s = some s := by
  induction frames with
  | nil => rfl
  | cons f rest ih =>
    obtain ⟨c, now⟩ := f
    have hu : unrecognized c := by
      rcases hk (c, now) (List.mem_cons_self _ _) with h | h
      · have hc : c = noKey := h
        rw [hc]; exact unrecognized_noKey
      · exact h
    simp only [run, iteration, input_unrecognized c s hu, Option.map_some',
      update_paused now s hp]
    exact ih (fun g hg => hk g (List.mem_cons_of_mem _ hg))

/-- C15 as stated fails: at tempo 80 in 4/4 the loop is paused at elapsed time 10 s, the
display stays at 10 s while paused, and the un-pausing iteration, 10 s of wall-clock time
later, computes the elapsed time 20 s, not 10 s. -/
theorem pause_elapsed_counterexample :
    (run [(noKey, 10), ('p', 10), (noKey, 15)] (initState 80 ⟨4, 4⟩ 0)).map
      (fun s => (s.paused, s.currentUpdateTime)) = some (true, 10) ∧
    (run [(noKey, 10), ('p', 10), (noKey, 15), ('p', 20)] (initState 80 ⟨4, 4⟩ 0)).map
      (fun s => (s.paused, s.currentUpdateTime)) = some (false, 20) := by
  constructor
  · simp only [run, iteration, input_p, input_noKey, Option.map_some']
    norm_num [update, initState, getWaitTime]
  · simp only [run, iteration, input_p, input_noKey, Option.map_some']
    norm_num [update, initState, getWaitTime]

/-- C15 (amended): pausing freezes the elapsed time only while the loop is paused.  For
every running state with elapsed time e, after a 'p' frame and any number of frames without
a recognized key the loop is paused and the elapsed time (and the whole beat state) is still
the one of the state that was paused; on the iteration that un-pauses it the elapsed time is
recomputed from the wall clock as the sample now - initUpdateTime of that iteration, so it
includes the time spent paused. -/
theorem pause_resume_elapsed (s : State) (t1 t2 : ℚ) (mid : List (Char × ℚ))
    (hp : s.paused = false) (hmid : ∀ f ∈ mid, f.1 = noKey ∨ unrecognized f.1) :
    run (('p', t1) :: mid) s = some { s with paused := true } ∧
    ∃ f, run (('p', t1) :: mid ++ [('p', t2)]) s = some f ∧ f.paused = false ∧
      f.currentUpdateTime = t2 := by
  have h1 : run (('p', t1) :: mid) s = some { s with paused := true } := by
    simp only [run, iteration, input_p, Option.map_some', hp, Bool.false_eq_true, if_false]
    rw [update_paused t1 _ rfl]
    exact run_paused_unrecognized mid _ rfl hmid
  refine ⟨h1, update t2 { s with paused := false }, ?_, ?_, ?_⟩
  · have happ : ('p', t1) :: mid ++ [('p', t2)] = (('p', t1) :: mid) ++ [('p', t2)] := rfl
    rw [happ, run_append, h1]
    simp only [Option.some_bind, run, iteration, input_p, Option.map_some', if_true]
  · exact (update_running t2 { s with paused := false } rfl).2.2.1
  · exact (update_running t2 { s with paused := false } rfl).1

/-- Instance of C15 (amended): the run of the counterexample from the state at 10 s. -/
theorem pause_resume_elapsed_witness :
    ∃ f, run (('p', 10) :: [(noKey, 15)] ++ [('p', 20)])
        { initState 80 ⟨4, 4⟩ 0 with currentUpdateTime := 10 } = some f ∧
      f.paused = false ∧ f.currentUpdateTime = 20 :=
  (pause_resume_elapsed { initState 80 ⟨4, 4⟩ 0 with currentUpdateTime := 10 } 10 20
    [(noKey, 15)] rfl (by decide)).2

/-! ## Tempo and interval consistency -/

theorem getWaitTime_getTempo (w : ℚ) (ts : Timesig) (_hw : w ≠ 0) (hden : ts.den ≠ 0) :
    getWaitTime (getTempo w ts) ts = w := by
  have hd : (ts.den : ℚ) ≠ 0 := by exact_mod_cast hden
  unfold getWaitTime getTempo
  field_simp
  ring

theorem update_waitTime (now : ℚ) (s : State) : (update now s).waitTime = s.waitTime := by
  unfold update
  split
  · rfl
  · dsimp only
    split <;> rfl

/-- The input phase keeps waitTime equal to getWaitTime of the tempo, provided a tap does
not measure a zero interval. -/
theorem consistent_input (c : Char) (s s1 : State) (hden : s.timesig.den ≠ 0)
    (htap : c = ' ' → s.currentUpdateTime - s.lastSpacePress ≠ 0)
    (hs : s.waitTime = getWaitTime s.tempo s.timesig) (h : input c s = some s1) :
    s1.waitTime = getWaitTime s1.tempo s1.timesig := by
  by_cases h4 : c = ' '
  · subst h4
    rw [input_space] at h
    rw [← Option.some.inj h]
    exact (getWaitTime_getTempo _ s.timesig (htap rfl) hden).symm
  · unfold input at h
    split_ifs at h <;> simp at h <;> subst h <;> first | rfl | exact hs

/-- Runs keep waitTime equal to getWaitTime of the tempo when no tap measures a zero
interval. -/
theorem consistent_run (frames : List (Char × ℚ)) :
    ∀ s f : State, s.timesig.den ≠ 0 → s.waitTime = getWaitTime s.tempo s.timesig →
      tapsAndTempoNonzero frames s → run frames s = some f →
      f.waitTime = getWaitTime f.tempo f.timesig ∧ f.timesig = s.timesig := by
  induction frames with
  | nil =>
    intro s f _ hs _ h
    simp only [run, Option.some.injEq] at h
    subst h
    exact ⟨hs, rfl⟩
  | cons fr rest ih =>
    intro s f hden hs hreg h
    obtain ⟨c, now⟩ := fr
    obtain ⟨htap, hrest⟩ := hreg
    simp only [run] at h
    simp only [iteration] at h hrest
    cases hi : input c s with
    | none => simp [hi] at h
    | some s2 =>
      simp only [hi, Option.map_some'] at h hrest
      have hts2 := input_timesig c s s2 hi
      have hc2 := consistent_input c s s2 hden htap hs hi
      have hts3 := update_timesig now s2
      have hc3 : (update now s2).waitTime
          = getWaitTime (update now s2).tempo (update now s2).timesig := by
        rw [update_waitTime, update_tempo, hts3]; exact hc2
      obtain ⟨hfin, htsfin⟩ := ih (update now s2) f (by rw [hts3, hts2]; exact hden) hc3
        hrest.2 h
      exact ⟨hfin, by rw [htsfin, hts3, hts2]⟩

/-- C18: the displayed tempo and the interval used for scheduling are consistent: for every
time signature with den > 0, every state reached from the initial state by loop iterations
in which no tap-tempo measures a zero interval and the tempo is never left at 0 has
waitTime = getWaitTime tempo timesig = 240 / (tempo * den). -/
theorem waitTime_consistent (tempo cur0 : ℚ) (ts : Timesig) (hden : 0 < ts.den)
    (frames : List (Char × ℚ)) (f : State)
    (hreg : tapsAndTempoNonzero frames (initState tempo ts cur0))
    (h : run frames (initState tempo ts cur0) = some f) :
    f.timesig = ts ∧ f.waitTime = getWaitTime f.tempo ts ∧
    f.waitTime = 240 / (f.tempo * (ts.den : ℚ)) := by
  have hd : (initState tempo ts cur0).timesig.den ≠ 0 := ne_of_gt hden
  obtain ⟨hc, hts⟩ := consistent_run frames (initState tempo ts cur0) f hd rfl hreg h
  have hts1 : f.timesig = ts := hts
  rw [hts1] at hc
  exact ⟨hts1, hc, hc⟩

/-- Instance of C18: a key-less frame, a tap and a '+' at tempo 80 in 4/4. -/
theorem waitTime_consistent_witness :
    ∃ f, run [(noKey, 1), (' ', 2), ('+', 3)] (initState 80 ⟨4, 4⟩ 0) = some f ∧
      f.waitTime = getWaitTime f.tempo ⟨4, 4⟩ := by
  have hn : noKey ≠ ' ' := by decide
  have hplus : '+' ≠ ' ' := by decide
  have hreg : tapsAndTempoNonzero [(noKey, 1), (' ', 2), ('+', 3)]
      (initState 80 ⟨4, 4⟩ 0) := by
    simp only [tapsAndTempoNonzero, iteration, input_noKey, input_space, input_plus,
      Option.map_some', update_tempo]
    refine ⟨fun h => absurd h hn, ?_, fun _ => ?_, ?_, fun h => absurd h hplus, ?_, trivial⟩
    · norm_num [initState]
    · norm_num [update, initState, getWaitTime]
    · norm_num [update, initState, getWaitTime, getTempo]
    · norm_num [update, initState, getWaitTime, getTempo]
  cases h : run [(noKey, 1), (' ', 2), ('+', 3)] (initState 80 ⟨4, 4⟩ 0) with
  | none => simp [run, iteration, input_noKey, input_space, input_plus] at h
  | some f =>
    exact ⟨f, rfl, (waitTime_consistent 80 0 ⟨4, 4⟩ (by decide) _ f hreg h).2.1⟩

/-! ## Geometry and drawing: theorems -/

/-- Position of a cell in a geometry that starts at column 2 and whose `num` cells of
this width fit the surface. -/
theorem cell_bounds (g : Geometry) (N COLS p : Int) (hsx : g.startX = 2)
    (hw0 : 0 ≤ g.width) (hmul : N * g.width ≤ COLS - 2 * (N + 1))
    (hp1 : 1 ≤ p) (hpN : p ≤ N) :
    2 ≤ cellX g p ∧ cellX g p + g.width ≤ COLS - 2 ∧
    cellX g (p + 1) = cellX g p + g.width + 2 := by
  have hG : GAP = 2 := rfl
  simp only [cellX, hsx, hG]
  have h1 : 0 ≤ (p - 1) * (2 + g.width) := mul_nonneg (by omega) (by omega)
  have h2 : (p - 1) * (2 + g.width) ≤ (N - 1) * (2 + g.width) :=
    mul_le_mul_of_nonneg_right (by omega) (by omega)
  refine ⟨by omega, ?_, by ring⟩
  have h3 : (N - 1) * (2 + g.width) = N * g.width + 2 * N - 2 - g.width := by ring
  omega

/-- The bordered box of `drawEmptyBox` writes only in the columns x .. x + w. -/
theorem drawEmptyBox_columns (x y w h : Int) (hw : 0 ≤ w) :
    ∀ c ∈ drawEmptyBox x y w h, ∀ r, colRange c = some r → x ≤ r.1 ∧ r.2 ≤ x + w := by
  intro c hc r hr
  simp only [drawEmptyBox, List.mem_cons, List.mem_singleton, List.not_mem_nil,
    or_false] at hc
  rcases hc with h | h | h | h <;> subst h <;>
    simp only [colRange, Option.some.injEq] at hr <;> subst hr <;>
    simp only <;> omega

/-- C19: beat cells fit the surface and do not overlap: for every numerator N >= 1 and every
surface width COLS >= GAP * (N + 1), with GAP = 2, resize gives width >= 0, and for every
beat position p in [1, N] the cell at x = startX + (p - 1) * (GAP + width) has GAP <= x and
x + width <= COLS - GAP, its bordered box writes only in the columns x .. x + width, and the
next cell starts at x + width + GAP. -/
theorem cells_fit (N COLS LINES den : Int) (hN : 1 ≤ N) (hC : GAP * (N + 1) ≤ COLS) :
    GAP = 2 ∧ 0 ≤ (resize COLS LINES ⟨N, den⟩).width ∧
    ∀ p : Int, 1 ≤ p → p ≤ N →
      GAP ≤ cellX (resize COLS LINES ⟨N, den⟩) p ∧
      cellX (resize COLS LINES ⟨N, den⟩) p + (resize COLS LINES ⟨N, den⟩).width
        ≤ COLS - GAP ∧
      cellX (resize COLS LINES ⟨N, den⟩) (p + 1)
        = cellX (resize COLS LINES ⟨N, den⟩) p + (resize COLS LINES ⟨N, den⟩).width + GAP ∧
      (∀ c ∈ drawEmptyBox (cellX (resize COLS LINES ⟨N, den⟩) p)
            (resize COLS LINES ⟨N, den⟩).startY (resize COLS LINES ⟨N, den⟩).width
            (resize COLS LINES ⟨N, den⟩).height,
        ∀ r, colRange c = some r →
          cellX (resize COLS LINES ⟨N, den⟩) p ≤ r.1 ∧
          r.2 ≤ cellX (resize COLS LINES ⟨N, den⟩) p
            + (resize COLS LINES ⟨N, den⟩).width) := by
  have hG : GAP = 2 := rfl
  rw [hG] at hC
  have ha : 0 ≤ COLS - 2 * (N + 1) := by omega
  have hN0 : (0 : Int) ≤ N := by omega
  have hNne : N ≠ 0 := by omega
  have hwdef : (resize COLS LINES ⟨N, den⟩).width = (COLS - 2 * (N + 1)) / N := by
    simp only [resize, hG]
    exact Int.tdiv_eq_ediv ha hN0
  have hw0 : 0 ≤ (resize COLS LINES ⟨N, den⟩).width := by
    rw [hwdef]; exact Int.ediv_nonneg ha hN0
  have hmul : N * (resize COLS LINES ⟨N, den⟩).width ≤ COLS - 2 * (N + 1) := by
    rw [hwdef]; exact Int.mul_ediv_self_le hNne
  refine ⟨hG, hw0, ?_⟩
  intro p hp1 hpN
  obtain ⟨h1, h2, h3⟩ := cell_bounds (resize COLS LINES ⟨N, den⟩) N COLS p rfl hw0 hmul hp1 hpN
  rw [hG]
  exact ⟨h1, h2, h3, drawEmptyBox_columns _ _ _ _ hw0⟩

/-- Instance of C19: four cells on an 80-column surface have width 17; the cell of beat 4
starts in column 59 and ends in column 76. -/
theorem cells_fit_witness :
    (resize 80 24 ⟨4, 4⟩).width = 17 ∧ cellX (resize 80 24 ⟨4, 4⟩) 4 = 59 ∧
    GAP ≤ cellX (resize 80 24 ⟨4, 4⟩) 4 ∧
    cellX (resize 80 24 ⟨4, 4⟩) 4 + (resize 80 24 ⟨4, 4⟩).width ≤ 80 - GAP :=
  have h := (cells_fit 4 80 24 4 (by decide) (by decide)).2.2 4 (by decide) (by decide)
  ⟨by decide, by decide, h.1, h.2.1⟩

/-- The vertical lines of a frame are the two sides of the box of the current beat. -/
theorem mvvline_mem_draw (COLS LINES : Int) (g : Geometry) (s : State) (y x n : Int)
    (ch : Char) (h : DrawCmd.mvvline y x ch n ∈ draw COLS LINES g s) :
    x = cellX g s.tickPosition ∨ x = cellX g s.tickPosition + g.width := by
  simp only [draw, drawEmptyBox, drawFilledBox, List.mem_append, List.mem_cons,
    List.mem_singleton, List.mem_map, List.not_mem_nil, or_false, false_or,
    DrawCmd.mvvline.injEq, reduceCtorEq, and_false, exists_false] at h
  rcases h with h | h
  · exact Or.inl h.2.1
  · exact Or.inr h.2.1

/-- C16 as stated fails: on an 80 x 24 surface in 4/4 with the beat at position 1, the frame
does not contain the bordered box of beat cell 2 (nor of cells 3 and 4). -/
theorem draw_all_cells_counterexample :
    ¬ drawsCellBox (draw 80 24 (resize 80 24 ⟨4, 4⟩) (initState 80 ⟨4, 4⟩ 0))
        (resize 80 24 ⟨4, 4⟩) 2 := by
  intro h
  have hm := h (DrawCmd.mvvline 2 21 ' ' 18) (by decide)
  rcases mvvline_mem_draw _ _ _ _ _ _ _ _ hm with h1 | h1
  · revert h1; decide
  · revert h1; decide

/-- C16 (amended): each frame clears the surface and draws one box only, the one of the
current beat position p, at x = startX + (p - 1) * (GAP + width): its border is drawn
(bordered empty box), and its inside is filled under the downbeat emphasis (highlight pair,
bold) if and only if p = 1 and under the normal emphasis otherwise.  The cells of the other
beats are not drawn: for every q other than p, with width >= 0, the frame does not contain
the bordered box of cell q. -/
theorem draw_current_cell (COLS LINES : Int) (g : Geometry) (s : State) :
    (draw COLS LINES g s).head? = some DrawCmd.clear ∧
    drawsCellBox (draw COLS LINES g s) g s.tickPosition ∧
    ([DrawCmd.attron (attr s.tickPosition)]
        ++ drawFilledBox (cellX g s.tickPosition + 1) (g.startY + 1) (g.width - 2)
            (g.height - 2)
        ++ [DrawCmd.attroff (attr s.tickPosition)]) <:+: draw COLS LINES g s ∧
    (attr s.tickPosition = ⟨HIGHLIGHT_COLOR, true⟩ ↔ s.tickPosition = 1) ∧
    (attr s.tickPosition = ⟨NORMAL_COLOR, false⟩ ↔ s.tickPosition ≠ 1) ∧
    (∀ q : Int, q ≠ s.tickPosition → 0 ≤ g.width →
      ¬ drawsCellBox (draw COLS LINES g s) g q) := by
  refine ⟨rfl, ?_, ?_, ?_, ?_, ?_⟩
  · intro c hc
    simp only [draw, List.mem_append]
    exact Or.inl (Or.inl (Or.inl (Or.inr hc)))
  · refine ⟨[DrawCmd.clear, DrawCmd.attron ⟨BORDER_COLOR, false⟩]
        ++ drawEmptyBox (cellX g s.tickPosition) g.startY g.width g.height
        ++ [DrawCmd.attroff ⟨BORDER_COLOR, false⟩],
      [DrawCmd.mvprintw (LINES - 1) (COLS - 45) s.tempo s.timesig.num s.timesig.den
          s.currentUpdateTime, DrawCmd.refresh], ?_⟩
    simp only [draw, List.append_assoc, List.cons_append, List.nil_append]
  · unfold attr
    split
    · rename_i h; simp [h]
    · rename_i h; simp [h, HIGHLIGHT_COLOR, NORMAL_COLOR]
  · unfold attr
    split
    · rename_i h; simp [h, HIGHLIGHT_COLOR, NORMAL_COLOR]
    · rename_i h; simp [h]
  · intro q hq hw hbox
    have hm := hbox (DrawCmd.mvvline g.startY (cellX g q) ' ' g.height)
      (by simp [drawEmptyBox])
    have hG : GAP = 2 := rfl
    have hdiff : cellX g q - cellX g s.tickPosition
        = (q - s.tickPosition) * (2 + g.width) := by
      simp only [cellX, hG]; ring
    have hcases : q - s.tickPosition ≥ 1 ∨ q - s.tickPosition ≤ -1 := by omega
    rcases mvvline_mem_draw _ _ _ _ _ _ _ _ hm with h1 | h1
    · have h0 : (q - s.tickPosition) * (2 + g.width) = 0 := by rw [← hdiff]; omega
      rcases mul_eq_zero.mp h0 with h2 | h2 <;> omega
    · have hwq : (q - s.tickPosition) * (2 + g.width) = g.width := by rw [← hdiff]; omega
      rcases hcases with h2 | h2
      · have : 1 * (2 + g.width) ≤ (q - s.tickPosition) * (2 + g.width) :=
          mul_le_mul_of_nonneg_right h2 (by omega)
        omega
      · have : (q - s.tickPosition) * (2 + g.width) ≤ (-1) * (2 + g.width) :=
          mul_le_mul_of_nonneg_right h2 (by omega)
        omega

/-- Instance of C16 (amended): on an 80 x 24 surface in 4/4 with the beat at position 1 the
box of cell 1 is drawn and the box of cell 3 is not. -/
theorem draw_current_cell_witness :
    drawsCellBox (draw 80 24 (resize 80 24 ⟨4, 4⟩) (initState 80 ⟨4, 4⟩ 0))
        (resize 80 24 ⟨4, 4⟩) 1 ∧
    ¬ drawsCellBox (draw 80 24 (resize 80 24 ⟨4, 4⟩) (initState 80 ⟨4, 4⟩ 0))
        (resize 80 24 ⟨4, 4⟩) 3 :=
  have h := draw_current_cell 80 24 (resize 80 24 ⟨4, 4⟩) (initState 80 ⟨4, 4⟩ 0)
  ⟨h.2.1, h.2.2.2.2.2 3 (by decide) (by decide)⟩

end Ticker
